import Mathlib

/-!
# Verification of `PistonDevelopers/table` (`src/lib.rs`)

Shallow embedding of the dynamically-typed `Value` / `Table` pair from
`src/lib.rs`, together with proofs about its equality, hashing, borrowing
and indexing behaviour.

Modelling decisions (each mirrors the Rust source, not the spec):

* `f64` is modelled by its semantically relevant structure: a finite double
  is a sign and a dyadic magnitude `num / 2 ^ exp` (every finite IEEE double
  is such a dyadic rational); infinities carry a sign; NaNs carry a payload
  standing for the many NaN bit patterns.  IEEE `==` (used by the *derived*
  `PartialEq` of the `F64` wrapper) identifies `+0.0` with `-0.0` and makes
  every NaN unequal to everything, itself included.
* Rust's `Hash` protocol feeds a stream of bytes into a `Hasher`
  (`SipHasher`).  We model the hash of a value as exactly that byte stream
  (`Value.hashBytes`), and idealise the final hasher as injective: two
  values "hash equally" iff they feed identical byte streams.  The streams
  follow the std impls: `i32`/`u64`/`usize`/`i64` write their little-endian
  bytes (64-bit target), `bool` writes one byte, `str`/`String` write the
  UTF-8 bytes followed by the `0xff` terminator byte, and the derived/manual
  impls of the crate concatenate in source order.
* A `HashMap<Value, Value>` state is modelled as its list of entries in
  iteration order (`EntryList`); insertion appends new entries at the end,
  which realises one legal iteration order (`HashMap` iteration order is
  arbitrary and unspecified).  Lookup (also through `Borrow<str>`) finds the
  first entry whose stored key both hashes to the same byte stream as the
  probe (same bucket, idealising away cross-hash bucket collisions) and
  compares equal to the probe, exactly the contract `HashMap` implements.
* `Arc<T>` compares and hashes by content, so it is transparent here.
* `unwrap()` on a missing entry (Rust panic) is modelled by `Option.none`
  results of the indexing operations.
-/

/-- A 64-bit IEEE floating point number, by semantic class: a finite number
is a sign (`true` = negative) and a dyadic magnitude `num / 2 ^ exp`
(every finite double is dyadic); `infinite` carries a sign; `nan` carries a
payload distinguishing the many NaN bit patterns. -/
inductive f64 where
  | finite (sign : Bool) (num : Nat) (exp : Nat)
  | infinite (sign : Bool)
  | nan (payload : Nat)
deriving DecidableEq, Repr

namespace f64

/-- IEEE-754 `==` on doubles, the comparison used by Rust's `PartialEq for
f64`: `+0.0 == -0.0`, NaN is unequal to everything (itself included), and
otherwise equality is equality of sign and magnitude. -/
def ieeeEq : f64 → f64 → Bool
  | .finite s1 n1 e1, .finite s2 n2 e2 =>
      if n1 = 0 && n2 = 0 then true
      else s1 == s2 && n1 * 2 ^ e2 == n2 * 2 ^ e1
  | .infinite s1, .infinite s2 => s1 == s2
  | _, _ => false

/-- Rust's `as u64` cast on a double (the cast in `impl Hash for F64`):
truncate toward zero, saturating at the bounds of `u64`; NaN casts to 0. -/
def toU64 : f64 → Nat
  | .finite s n e => if s then 0 else min (n / 2 ^ e) (2 ^ 64 - 1)
  | .infinite s => if s then 0 else 2 ^ 64 - 1
  | .nan _ => 0

/-- The double literal `0.0`. -/
def pos0 : f64 := .finite false 0 0

/-- The double literal `-0.0`. -/
def neg0 : f64 := .finite true 0 0

/-- The double literal `1.0`. -/
def one : f64 := .finite false 1 0

/-- The double literal `1.9` (the IEEE double nearest to 1.9, which is
`8556839887322187 / 2 ^ 52`). -/
def oneNine : f64 := .finite false 8556839887322187 52

/-- The double literal `2.0`. -/
def two : f64 := .finite false 2 0

/-- The double literal `3.0`. -/
def three : f64 := .finite false 3 0

end f64

/-- Abbreviation for the built-in string type, for use in signatures inside
the `Value` namespace, where the bare name `String` resolves to the
`Value.String` constructor. -/
abbrev Text := String

/-- `pub struct F64(pub f64);` — the crate's float wrapper. -/
structure F64 where
  payload : f64
deriving DecidableEq, Repr

/-- The *derived* `PartialEq for F64` compares the single `f64` field with
IEEE `==`. -/
def F64.beq (a b : F64) : Bool := f64.ieeeEq a.payload b.payload

/-- Little-endian byte encoding of `n % 256 ^ w` in `w` bytes: the bytes an
integer primitive of width `w` feeds into a `Hasher`. -/
def leBytes : Nat → Nat → List Nat
  | 0, _ => []
  | w + 1, n => n % 256 :: leBytes w (n / 256)

/-- UTF-8 encoding of a unicode code point. -/
def utf8Char (c : Nat) : List Nat :=
  if c < 0x80 then [c]
  else if c < 0x800 then [0xC0 + c / 0x40, 0x80 + c % 0x40]
  else if c < 0x10000 then
    [0xE0 + c / 0x1000, 0x80 + (c / 0x40) % 0x40, 0x80 + c % 0x40]
  else
    [0xF0 + c / 0x40000, 0x80 + (c / 0x1000) % 0x40,
     0x80 + (c / 0x40) % 0x40, 0x80 + c % 0x40]

/-- The UTF-8 bytes of a string, i.e. Rust's `str::as_bytes`. -/
def strBytes (s : String) : List Nat := (s.data.map (fun c => utf8Char c.toNat)).flatten

/-- The byte stream `impl Hash for str` feeds to the hasher: the UTF-8
bytes followed by the `0xff` length terminator (`state.write_u8(0xff)`).
`String` and `Arc<String>` hash identically to the underlying `str`. -/
def strHashBytes (s : String) : List Nat := strBytes s ++ [0xff]

mutual
/-- `pub enum Value` from `src/lib.rs`: Null, Bool, Usize, U64, I64, F64,
String (shared `Arc<String>`, transparent by content) and Table
(shared `Arc<Table>`, transparent by content). -/
inductive Value where
  | Null
  | Bool (b : Bool)
  | Usize (n : Nat)
  | U64 (n : Nat)
  | I64 (z : Int)
  | F64 (x : F64)
  | String (s : String)
  | Table (t : Table)

/-- `pub struct Table(pub HashMap<Value, Value>);` — the map state is its
entry list in iteration order. -/
inductive Table where
  | mk (entries : EntryList)

/-- The entries of a `HashMap<Value, Value>` in iteration order. -/
inductive EntryList where
  | nil
  | cons (key val : Value) (rest : EntryList)
end

mutual
/-- `impl Hash for Value`: the byte stream the manual `Hash` impl feeds to
the hasher.  `Null` hashes the `i32` literal `0` (4 zero bytes);
`Bool` writes one byte; `Usize`/`U64` write 8 little-endian bytes (64-bit
target); `I64` writes its two's complement little-endian bytes; `F64`
hashes `self.0 as u64`; `String` hashes the text; `Table` delegates to
`impl Hash for Table`. -/
def Value.hashBytes : Value → List Nat
  | .String s => strHashBytes s
  | .Null => leBytes 4 0
  | .Bool b => [cond b 1 0]
  | .Usize n => leBytes 8 n
  | .U64 n => leBytes 8 n
  | .I64 z => leBytes 8 (z.emod (2 ^ 64)).toNat
  | .F64 x => leBytes 8 (f64.toU64 x.payload)
  | .Table t => Table.hashBytes t

/-- `impl Hash for Table`: `for (key, val) in self.0.iter() { key.hash(state);
val.hash(state); }` — the entries' key and value streams concatenated in
iteration order. -/
def Table.hashBytes : Table → List Nat
  | .mk l => EntryList.hashBytes l

/-- Byte stream of an entry list: key stream then value stream, per entry
in iteration order. -/
def EntryList.hashBytes : EntryList → List Nat
  | .nil => []
  | .cons k v rest => Value.hashBytes k ++ Value.hashBytes v ++ EntryList.hashBytes rest
end

/-- `HashMap::len` — the number of stored entries. -/
def EntryList.len : EntryList → Nat
  | .nil => 0
  | .cons _ _ rest => EntryList.len rest + 1

mutual
/-- The derived `PartialEq for Value`: same variant and equal payloads;
`F64` payloads compare with IEEE `==` (derived `PartialEq for F64`),
`Arc<String>` by text content, `Arc<Table>` by `PartialEq for HashMap`. -/
def Value.beq : Value → Value → Bool
  | .Null, .Null => true
  | .Bool a, .Bool b => a == b
  | .Usize a, .Usize b => a == b
  | .U64 a, .U64 b => a == b
  | .I64 a, .I64 b => a == b
  | .F64 a, .F64 b => F64.beq a b
  | .String a, .String b => a == b
  | .Table a, .Table b => Table.beq a b
  | _, _ => false
termination_by a b => sizeOf a + sizeOf b
decreasing_by
  all_goals simp_wf
  all_goals omega

/-- The derived `PartialEq for Table`, i.e. `PartialEq for HashMap`:
`self.len() == other.len()` and every entry of `self` is found in `other`
(by hash-bucket probe plus `==`) with an equal value. -/
def Table.beq : Table → Table → Bool
  | .mk l1, .mk l2 => EntryList.len l1 == EntryList.len l2 && EntryList.allContained l1 l2
termination_by a b => sizeOf a + sizeOf b
decreasing_by
  all_goals simp_wf
  all_goals omega

/-- `self.iter().all(|(key, value)| other.get(key).map_or(false, |v| *value == *v))`. -/
def EntryList.allContained : EntryList → EntryList → Bool
  | .nil, _ => true
  | .cons k v rest, other =>
      EntryList.containsPair other k v && EntryList.allContained rest other
termination_by a b => sizeOf a + sizeOf b
decreasing_by
  all_goals simp_wf
  all_goals omega

/-- `other.get(key).map_or(false, |v| *value == *v)`: probe `other` for the
first entry whose key is in the same hash bucket (identical hash byte
stream) and `==`-equal to `k`, then compare its value with `v`. -/
def EntryList.containsPair : EntryList → Value → Value → Bool
  | .nil, _, _ => false
  | .cons k' v' rest, k, v =>
      if Value.hashBytes k' == Value.hashBytes k && Value.beq k' k
      then Value.beq v v'
      else EntryList.containsPair rest k v
termination_by l k v => sizeOf l + sizeOf k + sizeOf v
decreasing_by
  all_goals simp_wf
  all_goals omega
end

/-- `impl Borrow<str> for Value`: the `String` variant exposes its text,
every other variant yields `""`. -/
def Value.borrowStr : Value → Text
  | .String text => text
  | _ => ""

/-- Whether a `Value` is the `String` variant. -/
def isStringVariant : Value → Bool
  | .String _ => true
  | _ => false

/-- The bucket-probe test of `HashMap<Value, Value>` for a `Value` probe:
the stored key `k'` is found by probe `k` iff it landed in `k`'s bucket
(identical hash byte stream, idealising the hasher as injective) and
`k' == k`. -/
def keyMatches (k' k : Value) : Bool :=
  Value.hashBytes k' == Value.hashBytes k && Value.beq k' k

/-- The bucket-probe test for a `&str` probe through `Borrow<str>`:
the stored key `k'` is found by probe `s` iff its stored hash stream equals
the `str` hash stream of `s` and `k'.borrow() == s`. -/
def strKeyMatches (k' : Value) (s : String) : Bool :=
  Value.hashBytes k' == strHashBytes s && Value.borrowStr k' == s

/-- `HashMap::get(&k)`: the value of the first entry matching the probe. -/
def EntryList.lookupVal : EntryList → Value → Option Value
  | .nil, _ => none
  | .cons k' v' rest, k =>
      if keyMatches k' k then some v' else EntryList.lookupVal rest k

/-- `HashMap::get(s)` with a `&str` key through `Borrow<str>`. -/
def EntryList.lookupStr : EntryList → String → Option Value
  | .nil, _ => none
  | .cons k' v' rest, s =>
      if strKeyMatches k' s then some v' else EntryList.lookupStr rest s

/-- `HashMap::insert(k, v)`: replace the value of the entry found by probing
with `k` (the stored key is kept), else append a new entry. -/
def EntryList.insertEntry : EntryList → Value → Value → EntryList
  | .nil, k, v => .cons k v .nil
  | .cons k' v' rest, k, v =>
      if keyMatches k' k then .cons k' v rest
      else .cons k' v' (EntryList.insertEntry rest k v)

/-- Writing `v` through the `&mut Value` returned by `get_mut(&k)`: the
first entry matching probe `k` has its value replaced. -/
def EntryList.setFirstMatch : EntryList → Value → Value → EntryList
  | .nil, _, _ => .nil
  | .cons k' v' rest, k, v =>
      if keyMatches k' k then .cons k' v rest
      else .cons k' v' (EntryList.setFirstMatch rest k v)

/-- Writing `v` through the `&mut Value` returned by `get_mut(s)` for a
`&str` probe. -/
def EntryList.setFirstStrMatch : EntryList → String → Value → EntryList
  | .nil, _, _ => .nil
  | .cons k' v' rest, s, v =>
      if strKeyMatches k' s then .cons k' v rest
      else .cons k' v' (EntryList.setFirstStrMatch rest s v)

/-- The entries as a plain list of pairs. -/
def EntryList.toList : EntryList → List (Value × Value)
  | .nil => []
  | .cons k v rest => (k, v) :: EntryList.toList rest

namespace Table

/-- `Table::new()`. -/
def new : Table := .mk .nil

/-- `Table::with_capacity(n)` — capacity has no semantic effect. -/
def withCapacity (_capacity : Nat) : Table := .mk .nil

/-- The underlying entry list. -/
def entries : Table → EntryList
  | .mk l => l

/-- The entries as a plain list of pairs. -/
def entriesList (t : Table) : List (Value × Value) := t.entries.toList

/-- `HashMap::len` through `Deref`. -/
def len (t : Table) : Nat := t.entries.len

/-- `HashMap::clear` through `DerefMut`. -/
def clear (_t : Table) : Table := .mk .nil

/-- `self.0.get(&k)`. -/
def getVal (t : Table) (k : Value) : Option Value := t.entries.lookupVal k

/-- `self.0.get(s)` with a `&str` key. -/
def getStr (t : Table) (s : String) : Option Value := t.entries.lookupStr s

/-- `HashMap::contains_key` for a `&str` key (used by `IndexMut<&str>`). -/
def containsStr (t : Table) (s : String) : Bool := (t.getStr s).isSome

/-- `HashMap::insert` through `DerefMut`. -/
def insert (t : Table) (k v : Value) : Table := .mk (t.entries.insertEntry k v)

/-- `impl Index<Value> for Table`: `self.0.get(&index).unwrap()`; `none`
models the `unwrap` panic on an absent key. -/
def indexVal (t : Table) (index : Value) : Option Value := t.getVal index

/-- `impl Index<usize> for Table`: `self.0.get(&Value::Usize(index)).unwrap()`. -/
def indexUsize (t : Table) (index : Nat) : Option Value := t.getVal (.Usize index)

/-- `impl Index<&str> for Table`: `self.0.get(index).unwrap()`. -/
def indexStr (t : Table) (index : String) : Option Value := t.getStr index

/-- The entry-or-insert step of `impl IndexMut<Value> for Table`:
`match self.0.entry(index.clone()) { Occupied => {}, Vacant(x) => { x.insert(Value::Null); } }`. -/
def vivifyVal (t : Table) (index : Value) : Table :=
  match t.entries.lookupVal index with
  | some _ => t
  | none => .mk (t.entries.insertEntry index .Null)

/-- The entry-or-insert step of `impl IndexMut<usize> for Table`, with the
probe key `Value::Usize(index)`. -/
def vivifyUsize (t : Table) (index : Nat) : Table := t.vivifyVal (.Usize index)

/-- The contains-or-insert step of `impl IndexMut<&str> for Table`:
`if !self.0.contains_key(index) { self.insert(Value::String(...), Value::Null); }`. -/
def vivifyStr (t : Table) (index : String) : Table :=
  if t.containsStr index then t
  else t.insert (.String index) .Null

/-- `table[index] = v` through `IndexMut<Value>`: the entry-or-insert step,
then `self.0.get_mut(&index).unwrap()` and a store of `v` through the
returned reference.  `none` models the `unwrap` panic when `get_mut` finds
no entry even after the insert. -/
def writeVal (t : Table) (index : Value) (v : Value) : Option Table :=
  let t' := t.vivifyVal index
  match t'.entries.lookupVal index with
  | some _ => some (.mk (t'.entries.setFirstMatch index v))
  | none => none

/-- `table[index] = v` through `IndexMut<usize>`. -/
def writeUsize (t : Table) (index : Nat) (v : Value) : Option Table :=
  t.writeVal (.Usize index) v

/-- `table[index] = v` through `IndexMut<&str>`: contains-or-insert, then
`self.0.get_mut(index).unwrap()` and a store through the reference. -/
def writeStr (t : Table) (index : String) (v : Value) : Option Table :=
  let t' := t.vivifyStr index
  match t'.entries.lookupStr index with
  | some _ => some (.mk (t'.entries.setFirstStrMatch index v))
  | none => none

end Table

/-- The table built by the `test_vec3` scenario: from an empty table,
`vec3[0] = 1.0; vec3[1] = 2.0; vec3[2] = 3.0` through `IndexMut<usize>`. -/
def vec3Table : Option Table :=
  (Table.new.writeUsize 0 (.F64 ⟨f64.one⟩)).bind fun t =>
    (t.writeUsize 1 (.F64 ⟨f64.two⟩)).bind fun t =>
      t.writeUsize 2 (.F64 ⟨f64.three⟩)

/-- The table `{Usize 0 ↦ Null, Bool true ↦ Null}` with the `Usize` entry
first in iteration order (the order realised by inserting the `Usize` entry
first). -/
def tOrderA : Table := .mk (.cons (.Usize 0) .Null (.cons (.Bool true) .Null .nil))

/-- The same mapping with the entries in the opposite iteration order. -/
def tOrderB : Table := .mk (.cons (.Bool true) .Null (.cons (.Usize 0) .Null .nil))

/-- A non-String value whose hash byte stream coincides with the `str` hash
stream of `""`: the one-entry table `{Table({}) ↦ String("")}` wrapped as a
Value.  The inner empty table contributes no bytes, and the `String("")`
value contributes exactly the terminator `[0xff]` — the same bytes `""`
feeds as a `str`. -/
def weirdKey : Value := .Table (.mk (.cons (.Table (.mk .nil)) (.String "") .nil))

/-- A table whose only entry is stored under the non-String key `weirdKey`. -/
def weirdTable : Table := .mk (.cons weirdKey (.Bool true) .nil)

/-- A sample two-entry table used to instantiate theorems with hypotheses. -/
def sampleTable : Table :=
  .mk (.cons (.Usize 0) (.Bool true) (.cons (.String "a") (.Bool true) .nil))

/-! ## General lemmas about lookup, insertion and slot updates -/

theorem Table.entries_mk (l : EntryList) : (Table.mk l).entries = l := rfl

theorem lookupVal_none_iff : ∀ (l : EntryList) (k : Value),
    l.lookupVal k = none ↔ ∀ p ∈ l.toList, keyMatches p.1 k = false
  | .nil, k => by simp [EntryList.lookupVal, EntryList.toList]
  | .cons k' v' rest, k => by
    by_cases hm : keyMatches k' k = true
    · refine iff_of_false (by simp [EntryList.lookupVal, hm]) ?_
      intro hall
      have := hall (k', v') (by simp [EntryList.toList])
      simp [hm] at this
    · have hm' : keyMatches k' k = false := by simpa using hm
      constructor
      · intro h p hp
        have hp' : p = (k', v') ∨ p ∈ rest.toList := by simpa [EntryList.toList] using hp
        rcases hp' with rfl | hp'
        · exact hm'
        · exact (lookupVal_none_iff rest k).mp (by simpa [EntryList.lookupVal, hm'] using h) p hp'
      · intro hall
        simp only [EntryList.lookupVal, hm', if_neg]
        simp only [Bool.false_eq_true, if_false]
        exact (lookupVal_none_iff rest k).mpr fun p hp => hall p (by simp [EntryList.toList, hp])

theorem lookupVal_some_mem : ∀ (l : EntryList) (k v : Value),
    l.lookupVal k = some v → ∃ k', (k', v) ∈ l.toList ∧ keyMatches k' k = true
  | .nil, k, v => by simp [EntryList.lookupVal]
  | .cons k' v' rest, k, v => by
    intro h
    by_cases hm : keyMatches k' k = true
    · have hv : v' = v := by simpa [EntryList.lookupVal, hm] using h
      exact ⟨k', by simp [EntryList.toList, hv], hm⟩
    · have hm' : keyMatches k' k = false := by simpa using hm
      obtain ⟨k0, hmem, hk0⟩ :=
        lookupVal_some_mem rest k v (by simpa [EntryList.lookupVal, hm'] using h)
      exact ⟨k0, by simp [EntryList.toList, hmem], hk0⟩

theorem lookupStr_none_iff : ∀ (l : EntryList) (s : String),
    l.lookupStr s = none ↔ ∀ p ∈ l.toList, strKeyMatches p.1 s = false
  | .nil, s => by simp [EntryList.lookupStr, EntryList.toList]
  | .cons k' v' rest, s => by
    by_cases hm : strKeyMatches k' s = true
    · refine iff_of_false (by simp [EntryList.lookupStr, hm]) ?_
      intro hall
      have := hall (k', v') (by simp [EntryList.toList])
      simp [hm] at this
    · have hm' : strKeyMatches k' s = false := by simpa using hm
      constructor
      · intro h p hp
        have hp' : p = (k', v') ∨ p ∈ rest.toList := by simpa [EntryList.toList] using hp
        rcases hp' with rfl | hp'
        · exact hm'
        · exact (lookupStr_none_iff rest s).mp (by simpa [EntryList.lookupStr, hm'] using h) p hp'
      · intro hall
        simp only [EntryList.lookupStr, hm', if_neg]
        simp only [Bool.false_eq_true, if_false]
        exact (lookupStr_none_iff rest s).mpr fun p hp => hall p (by simp [EntryList.toList, hp])

theorem lookupStr_some_mem : ∀ (l : EntryList) (s : String) (v : Value),
    l.lookupStr s = some v → ∃ k', (k', v) ∈ l.toList ∧ strKeyMatches k' s = true
  | .nil, s, v => by simp [EntryList.lookupStr]
  | .cons k' v' rest, s, v => by
    intro h
    by_cases hm : strKeyMatches k' s = true
    · have hv : v' = v := by simpa [EntryList.lookupStr, hm] using h
      exact ⟨k', by simp [EntryList.toList, hv], hm⟩
    · have hm' : strKeyMatches k' s = false := by simpa using hm
      obtain ⟨k0, hmem, hk0⟩ :=
        lookupStr_some_mem rest s v (by simpa [EntryList.lookupStr, hm'] using h)
      exact ⟨k0, by simp [EntryList.toList, hmem], hk0⟩

theorem lookupVal_insertEntry_self : ∀ (l : EntryList) (k x : Value),
    l.lookupVal k = none → Value.beq k k = true → (l.insertEntry k x).lookupVal k = some x
  | .nil, k, x => by
    intro _ hrefl
    simp [EntryList.insertEntry, EntryList.lookupVal, keyMatches, hrefl]
  | .cons k' v' rest, k, x => by
    intro habs hrefl
    have hm : keyMatches k' k = false := by
      by_cases h : keyMatches k' k = true
      · exfalso; simp [EntryList.lookupVal, h] at habs
      · simpa using h
    simp only [EntryList.insertEntry, EntryList.lookupVal, hm, Bool.false_eq_true, if_false]
    exact lookupVal_insertEntry_self rest k x (by simpa [EntryList.lookupVal, hm] using habs) hrefl

theorem lookupVal_setFirstMatch : ∀ (l : EntryList) (k v w : Value),
    l.lookupVal k = some w → (l.setFirstMatch k v).lookupVal k = some v
  | .nil, k, v, w => by simp [EntryList.lookupVal]
  | .cons k' v' rest, k, v, w => by
    intro h
    by_cases hm : keyMatches k' k = true
    · simp [EntryList.setFirstMatch, EntryList.lookupVal, hm]
    · have hm' : keyMatches k' k = false := by simpa using hm
      simp only [EntryList.setFirstMatch, EntryList.lookupVal, hm', Bool.false_eq_true, if_false]
      exact lookupVal_setFirstMatch rest k v w (by simpa [EntryList.lookupVal, hm'] using h)

/-- Every `Value` either is the `String` variant wrapping its own borrowed
text, or borrows as the empty text. -/
theorem borrowStr_cases : ∀ k' : Value,
    k' = .String (Value.borrowStr k') ∨ Value.borrowStr k' = ""
  | .Null => Or.inr rfl
  | .Bool _ => Or.inr rfl
  | .Usize _ => Or.inr rfl
  | .U64 _ => Or.inr rfl
  | .I64 _ => Or.inr rfl
  | .F64 _ => Or.inr rfl
  | .String _ => Or.inl rfl
  | .Table _ => Or.inr rfl

/-- `==` against a `Value::String` holds only for the identical `String`
value (derived `PartialEq` is variant-tagged). -/
theorem beq_string_key : ∀ (k' : Value) (s : String),
    Value.beq k' (.String s) = true → k' = .String s
  | .Null, s => by simp [Value.beq]
  | .Bool _, s => by simp [Value.beq]
  | .Usize _, s => by simp [Value.beq]
  | .U64 _, s => by simp [Value.beq]
  | .I64 _, s => by simp [Value.beq]
  | .F64 _, s => by simp [Value.beq]
  | .String t, s => by
    intro h
    have ht : t = s := by simpa [Value.beq] using h
    rw [ht]
  | .Table _, s => by simp [Value.beq]

/-- A stored key is found by a `Value::String` probe exactly when it is that
very `String` value (the hash-stream check is then automatic). -/
theorem keyMatches_string_iff (k' : Value) (s : String) :
    keyMatches k' (.String s) = true ↔ k' = .String s := by
  constructor
  · intro h
    simp only [keyMatches, Bool.and_eq_true] at h
    exact beq_string_key k' s h.2
  · rintro rfl
    simp [keyMatches, Value.beq]

/-- A `String` key is always found by its own text probe. -/
theorem strKeyMatches_self_string (s : String) : strKeyMatches (.String s) s = true := by
  simp [strKeyMatches, Value.hashBytes, Value.borrowStr]

/-- For a non-empty probe, only the exact `String` key can satisfy the
`&str` probe test, because every other variant borrows as `""`. -/
theorem strKeyMatches_string_key (k' : Value) (s : String)
    (hs : s ≠ "") (h : strKeyMatches k' s = true) : k' = .String s := by
  have hb : Value.borrowStr k' = s := by
    simp only [strKeyMatches, Bool.and_eq_true] at h
    simpa using h.2
  rcases borrowStr_cases k' with hk | hk
  · rw [hb] at hk; exact hk
  · rw [hb] at hk; exact absurd hk hs

theorem lookupStr_insertEntry_absent : ∀ (l : EntryList) (s : String) (x : Value),
    l.lookupStr s = none → (l.insertEntry (.String s) x).lookupStr s = some x
  | .nil, s, x => by
    intro _
    simp [EntryList.insertEntry, EntryList.lookupStr, strKeyMatches_self_string]
  | .cons k' v' rest, s, x => by
    intro habs
    have hsm : strKeyMatches k' s = false := by
      by_cases h : strKeyMatches k' s = true
      · exfalso; simp [EntryList.lookupStr, h] at habs
      · simpa using h
    have hm : keyMatches k' (.String s) = false := by
      by_cases h : keyMatches k' (.String s) = true
      · exfalso
        have hk := (keyMatches_string_iff k' s).mp h
        rw [hk, strKeyMatches_self_string s] at hsm
        simp at hsm
      · simpa using h
    simp only [EntryList.insertEntry, EntryList.lookupStr, hm, hsm, Bool.false_eq_true, if_false]
    exact lookupStr_insertEntry_absent rest s x (by simpa [EntryList.lookupStr, hsm] using habs)

theorem lookupStr_setFirstStrMatch : ∀ (l : EntryList) (s : String) (v w : Value),
    l.lookupStr s = some w → (l.setFirstStrMatch s v).lookupStr s = some v
  | .nil, s, v, w => by simp [EntryList.lookupStr]
  | .cons k' v' rest, s, v, w => by
    intro h
    by_cases hm : strKeyMatches k' s = true
    · simp [EntryList.setFirstStrMatch, EntryList.lookupStr, hm]
    · have hm' : strKeyMatches k' s = false := by simpa using hm
      simp only [EntryList.setFirstStrMatch, EntryList.lookupStr, hm', Bool.false_eq_true,
        if_false]
      exact lookupStr_setFirstStrMatch rest s v w (by simpa [EntryList.lookupStr, hm'] using h)

/-- A successful `&str` lookup by a non-empty probe comes from an entry whose
key is exactly the `String` value holding the probe text. -/
theorem lookupStr_some_string_key : ∀ (l : EntryList) (s : String) (w : Value), s ≠ "" →
    l.lookupStr s = some w → ∃ pre post, l.toList = pre ++ (Value.String s, w) :: post
  | .nil, s, w => by simp [EntryList.lookupStr]
  | .cons k' v' rest, s, w => by
    intro hs h
    by_cases hm : strKeyMatches k' s = true
    · have hk : k' = .String s := strKeyMatches_string_key k' s hs hm
      have hw : v' = w := by simpa [EntryList.lookupStr, hm] using h
      exact ⟨[], rest.toList, by simp [EntryList.toList, hk, hw]⟩
    · have hm' : strKeyMatches k' s = false := by simpa using hm
      obtain ⟨pre, post, heq⟩ :=
        lookupStr_some_string_key rest s w hs (by simpa [EntryList.lookupStr, hm'] using h)
      exact ⟨(k', v') :: pre, post, by simp [EntryList.toList, heq]⟩

/-- Inserting under a `Value::String` key and reading back through the plain
text probe (for non-empty text) always finds the inserted value. -/
theorem lookupStr_insertEntry_string : ∀ (l : EntryList) (s : String) (v : Value), s ≠ "" →
    (l.insertEntry (.String s) v).lookupStr s = some v
  | .nil, s, v => by
    intro _
    simp [EntryList.insertEntry, EntryList.lookupStr, strKeyMatches_self_string]
  | .cons k' v' rest, s, v => by
    intro hs
    by_cases hm : keyMatches k' (.String s) = true
    · have hk : k' = .String s := (keyMatches_string_iff k' s).mp hm
      have hself : keyMatches (.String s) (.String s) = true :=
        (keyMatches_string_iff (.String s) s).mpr rfl
      simp [EntryList.insertEntry, hm, EntryList.lookupStr, hk, hself,
        strKeyMatches_self_string]
    · have hm' : keyMatches k' (.String s) = false := by simpa using hm
      have hsm : strKeyMatches k' s = false := by
        by_cases h2 : strKeyMatches k' s = true
        · exfalso
          have hk := strKeyMatches_string_key k' s hs h2
          rw [hk] at hm'
          rw [(keyMatches_string_iff (.String s) s).mpr rfl] at hm'
          simp at hm'
        · simpa using h2
      simp only [EntryList.insertEntry, EntryList.lookupStr, hm', hsm, Bool.false_eq_true,
        if_false]
      exact lookupStr_insertEntry_string rest s v hs

/-- `+0.0` and `-0.0` are interchangeable as probes: every stored key
matches one exactly when it matches the other (their hash streams coincide
and IEEE `==` identifies them). -/
theorem keyMatches_pos0_neg0 : ∀ k' : Value,
    keyMatches k' (.F64 ⟨f64.pos0⟩) = keyMatches k' (.F64 ⟨f64.neg0⟩)
  | .Null => by simp [keyMatches, Value.beq]
  | .Bool _ => by simp [keyMatches, Value.beq]
  | .Usize _ => by simp [keyMatches, Value.beq]
  | .U64 _ => by simp [keyMatches, Value.beq]
  | .I64 _ => by simp [keyMatches, Value.beq]
  | .String _ => by simp [keyMatches, Value.beq]
  | .Table _ => by simp [keyMatches, Value.beq]
  | .F64 x => by
    obtain ⟨p⟩ := x
    have hhash : Value.hashBytes (.F64 ⟨f64.pos0⟩) = Value.hashBytes (.F64 ⟨f64.neg0⟩) := by
      decide
    have hbeq : F64.beq ⟨p⟩ ⟨f64.pos0⟩ = F64.beq ⟨p⟩ ⟨f64.neg0⟩ := by
      cases p with
      | finite s n e =>
        by_cases hn : n = 0
        · simp [F64.beq, f64.ieeeEq, f64.pos0, f64.neg0, hn]
        · have h0 : (n == 0) = false := by simpa using hn
          simp [F64.beq, f64.ieeeEq, f64.pos0, f64.neg0, hn, h0]
      | infinite s => rfl
      | nan q => rfl
    simp [keyMatches, Value.beq, hhash, hbeq]

theorem lookupVal_insertEntry_pos0_neg0 : ∀ (l : EntryList) (v : Value),
    (l.insertEntry (.F64 ⟨f64.pos0⟩) v).lookupVal (.F64 ⟨f64.neg0⟩) = some v
  | .nil, v => by
    have hhash : Value.hashBytes (.F64 ⟨f64.finite false 0 0⟩)
        = Value.hashBytes (.F64 ⟨f64.finite true 0 0⟩) := by decide
    simp [EntryList.insertEntry, EntryList.lookupVal, keyMatches, Value.beq, F64.beq,
      f64.ieeeEq, f64.pos0, f64.neg0, hhash]
  | .cons k' v' rest, v => by
    by_cases hm : keyMatches k' (.F64 ⟨f64.pos0⟩) = true
    · have hm2 : keyMatches k' (.F64 ⟨f64.neg0⟩) = true := by
        rw [← keyMatches_pos0_neg0]; exact hm
      simp [EntryList.insertEntry, hm, EntryList.lookupVal, hm2]
    · have hm' : keyMatches k' (.F64 ⟨f64.pos0⟩) = false := by simpa using hm
      have hm2 : keyMatches k' (.F64 ⟨f64.neg0⟩) = false := by
        rw [← keyMatches_pos0_neg0]; exact hm'
      simp only [EntryList.insertEntry, EntryList.lookupVal, hm', hm2, Bool.false_eq_true,
        if_false]
      exact lookupVal_insertEntry_pos0_neg0 rest v

/-! ## Claim theorems -/

/-- C1: the claimed Hash/Eq consistency (`a == b` implies equal hashes for
every variant) fails on the `Table` variant: the two Values wrap tables
holding the same entries in different iteration orders, compare equal under
the derived `PartialEq`, yet feed different byte streams to the hasher
because `impl Hash for Table` hashes entries in iteration order. -/
theorem c1_hash_eq_inconsistency :
    Value.beq (.Table tOrderA) (.Table tOrderB) = true
    ∧ Value.hashBytes (.Table tOrderA) ≠ Value.hashBytes (.Table tOrderB) := by
  constructor
  · simp [tOrderA, tOrderB, Value.beq, Table.beq, EntryList.len, EntryList.allContained,
      EntryList.containsPair, Value.hashBytes, leBytes]
  · decide

/-- C2: Table content equality is order-independent, but the hash is not:
the same key/value pairs inserted in the two possible orders yield tables
that are `==`-equal while their `Hash` byte streams differ, because
`impl Hash for Table` feeds entries in iteration order into the sequential
hasher. -/
theorem c2_order_dependent_table_hash :
    (Table.new.insert (.Usize 0) .Null).insert (.Bool true) .Null = tOrderA
    ∧ (Table.new.insert (.Bool true) .Null).insert (.Usize 0) .Null = tOrderB
    ∧ Table.beq tOrderA tOrderB = true
    ∧ Table.hashBytes tOrderA ≠ Table.hashBytes tOrderB := by
  refine ⟨?_, ?_, ?_, ?_⟩
  · simp [Table.new, Table.insert, Table.entries, EntryList.insertEntry, keyMatches,
      Value.beq, Value.hashBytes, tOrderA, leBytes]
  · simp [Table.new, Table.insert, Table.entries, EntryList.insertEntry, keyMatches,
      Value.beq, Value.hashBytes, tOrderB, leBytes]
  · simp [tOrderA, tOrderB, Table.beq, EntryList.len, EntryList.allContained,
      EntryList.containsPair, Value.beq, Value.hashBytes, leBytes]
  · decide

/-- C3: the claim that two wrapped NaNs compare equal fails: `F64` *derives*
`PartialEq`, which compares the payloads with IEEE `==`, so `F64(NaN) ==
F64(NaN)` is `false` for every pair of NaN payloads — contradicting the
reflexivity that the accompanying `impl Eq for F64` asserts. -/
theorem c3_nan_ieee_inequality (p q : Nat) :
    F64.beq ⟨.nan p⟩ ⟨.nan q⟩ = false
    ∧ Value.beq (.F64 ⟨.nan p⟩) (.F64 ⟨.nan q⟩) = false := by
  constructor
  · rfl
  · simp [Value.beq, F64.beq, f64.ieeeEq]

/-- C4: read indexing (by Value, by integer, and by text) returns the value
stored at a matching key when one exists and panics (modelled as `none`)
exactly when no stored key matches the probe; integer indexing is exactly
Value indexing at the `Usize` variant. -/
theorem c4_read_indexing (t : Table) (k : Value) (n : Nat) (s : String) :
    (t.indexVal k = none ↔ ∀ p ∈ t.entriesList, keyMatches p.1 k = false)
    ∧ (∀ v, t.indexVal k = some v → ∃ k', (k', v) ∈ t.entriesList ∧ keyMatches k' k = true)
    ∧ t.indexUsize n = t.indexVal (.Usize n)
    ∧ (t.indexStr s = none ↔ ∀ p ∈ t.entriesList, strKeyMatches p.1 s = false)
    ∧ (∀ v, t.indexStr s = some v →
        ∃ k', (k', v) ∈ t.entriesList ∧ strKeyMatches k' s = true) := by
  refine ⟨?_, ?_, rfl, ?_, ?_⟩
  · simpa [Table.indexVal, Table.getVal, Table.entriesList] using lookupVal_none_iff t.entries k
  · intro v h
    exact lookupVal_some_mem t.entries k v (by simpa [Table.indexVal, Table.getVal] using h)
  · simpa [Table.indexStr, Table.getStr, Table.entriesList] using lookupStr_none_iff t.entries s
  · intro v h
    exact lookupStr_some_mem t.entries s v (by simpa [Table.indexStr, Table.getStr] using h)

/-- C4 witness: the empty table panics on reading index `Usize 7`, and a
table holding `Bool true` under `Usize 0` returns it from a stored matching
key. -/
theorem c4_read_indexing_witness :
    Table.new.indexVal (.Usize 7) = none
    ∧ ∃ k', (k', Value.Bool true) ∈ (Table.new.insert (.Usize 0) (.Bool true)).entriesList
        ∧ keyMatches k' (.Usize 0) = true := by
  constructor
  · exact (c4_read_indexing Table.new (.Usize 7) 0 "x").1.mpr
      (by simp [Table.entriesList, Table.new, Table.entries, EntryList.toList])
  · exact (c4_read_indexing (Table.new.insert (.Usize 0) (.Bool true)) (.Usize 0) 0 "x").2.1
      (.Bool true)
      (by simp [Table.indexVal, Table.getVal, Table.insert, Table.new, Table.entries,
        EntryList.insertEntry, EntryList.lookupVal, keyMatches, Value.beq, Value.hashBytes])

/-- C5 counterexample: for the absent key `F64(NaN)` the write-indexing
entry step does insert a `Null` entry, but no mutable handle is returned:
the subsequent `get_mut(&index).unwrap()` panics (modelled as `none`)
because the NaN key does not compare equal to itself. -/
theorem c5_counterexample :
    Table.new.getVal (.F64 ⟨.nan 0⟩) = none
    ∧ (Table.new.vivifyVal (.F64 ⟨.nan 0⟩)).entriesList = [(.F64 ⟨.nan 0⟩, .Null)]
    ∧ Table.new.writeVal (.F64 ⟨.nan 0⟩) (.Bool true) = none := by
  refine ⟨by simp [Table.getVal, Table.new, Table.entries, EntryList.lookupVal], ?_, ?_⟩
  · simp [Table.vivifyVal, Table.new, Table.entries, Table.entriesList, EntryList.lookupVal,
      EntryList.insertEntry, EntryList.toList]
  · simp [Table.writeVal, Table.vivifyVal, Table.new, Table.entries, EntryList.lookupVal,
      EntryList.insertEntry, keyMatches, Value.beq, F64.beq, f64.ieeeEq]

/-- C5 (amended): write indexing auto-vivifies for every key that compares
equal to itself (`k == k`, which holds for every NaN-free key, and always
for integer and text keys): an absent key first receives a `Null` entry and
the returned handle designates that slot, so a subsequent store lands under
the key; the concrete vec3 scenario writes `1.0, 2.0, 3.0` at indices
`0, 1, 2`, reads them back exactly, and `clear()` leaves length 0. -/
theorem c5_auto_vivify (t : Table) (k v : Value) (s : String)
    (habs : t.getVal k = none) (hrefl : Value.beq k k = true)
    (habsS : t.getStr s = none) :
    t.vivifyVal k = Table.mk (t.entries.insertEntry k .Null)
    ∧ (t.vivifyVal k).getVal k = some .Null
    ∧ (∃ t2, t.writeVal k v = some t2 ∧ t2.getVal k = some v)
    ∧ (t.vivifyStr s).getStr s = some .Null
    ∧ (∃ t2, t.writeStr s v = some t2 ∧ t2.getStr s = some v)
    ∧ (vec3Table.map fun u => (u.indexUsize 0, u.indexUsize 1, u.indexUsize 2, u.clear.len))
        = some (some (.F64 ⟨f64.one⟩), some (.F64 ⟨f64.two⟩), some (.F64 ⟨f64.three⟩), 0) := by
  have habs' : t.entries.lookupVal k = none := habs
  have hviv : t.vivifyVal k = Table.mk (t.entries.insertEntry k .Null) := by
    simp [Table.vivifyVal, habs']
  have hlook : (t.entries.insertEntry k .Null).lookupVal k = some .Null :=
    lookupVal_insertEntry_self t.entries k .Null habs' hrefl
  have habsS' : t.entries.lookupStr s = none := habsS
  have hcont : t.containsStr s = false := by simp [Table.containsStr, Table.getStr, habsS']
  have hvivS : t.vivifyStr s = Table.mk (t.entries.insertEntry (.String s) .Null) := by
    simp [Table.vivifyStr, hcont, Table.insert]
  have hlookS : (t.entries.insertEntry (.String s) .Null).lookupStr s = some .Null :=
    lookupStr_insertEntry_absent t.entries s .Null habsS'
  refine ⟨hviv, ?_, ?_, ?_, ?_, ?_⟩
  · rw [hviv]; exact hlook
  · refine ⟨Table.mk ((t.entries.insertEntry k .Null).setFirstMatch k v), ?_, ?_⟩
    · simp only [Table.writeVal, hviv, Table.entries_mk, hlook]
    · exact lookupVal_setFirstMatch _ k v .Null hlook
  · rw [hvivS]; exact hlookS
  · refine ⟨Table.mk ((t.entries.insertEntry (.String s) .Null).setFirstStrMatch s v), ?_, ?_⟩
    · simp only [Table.writeStr, hvivS, Table.entries_mk, hlookS]
    · exact lookupStr_setFirstStrMatch _ s v .Null hlookS
  · simp [vec3Table, Table.writeUsize, Table.writeVal, Table.vivifyVal, Table.new,
      Table.entries, EntryList.lookupVal, keyMatches, Value.beq, Value.hashBytes,
      EntryList.insertEntry, EntryList.setFirstMatch, Option.bind, Table.indexUsize,
      Table.getVal, Table.clear, Table.len, EntryList.len]

/-- C5 witness: instantiating the auto-vivification theorem at the empty
table with the absent keys `Usize 5` and text `"k"`. -/
theorem c5_auto_vivify_witness :
    (Table.new.vivifyVal (.Usize 5)).getVal (.Usize 5) = some .Null
    ∧ (Table.new.vivifyStr "k").getStr "k" = some .Null := by
  have h := c5_auto_vivify Table.new (.Usize 5) (.Bool true) "k"
    (by simp [Table.getVal, Table.new, Table.entries, EntryList.lookupVal])
    (by simp [Value.beq])
    (by simp [Table.getStr, Table.new, Table.entries, EntryList.lookupStr])
  exact ⟨h.2.1, h.2.2.2.1⟩

/-- C6: the hash byte stream of an `F64` value is exactly the stream of the
`u64` obtained by Rust's truncating-toward-zero (saturating) cast of its
payload; consequently `F64(1.0)` and `F64(1.9)` hash identically. -/
theorem c6_f64_hash_truncation (x : F64) :
    Value.hashBytes (.F64 x) = Value.hashBytes (.U64 (f64.toU64 x.payload))
    ∧ Value.hashBytes (.F64 ⟨f64.one⟩) = Value.hashBytes (.F64 ⟨f64.oneNine⟩) :=
  ⟨rfl, by decide⟩

/-- C7 counterexample: a text lookup *can* return an entry stored under a
non-String key: `weirdKey` is a Table-variant value whose hash byte stream
coincides with the `str` stream of `""` and which borrows as `""`, so
`table[""]` returns the entry stored under it. -/
theorem c7_counterexample :
    isStringVariant weirdKey = false
    ∧ weirdTable.entriesList = [(weirdKey, .Bool true)]
    ∧ weirdTable.indexStr "" = some (.Bool true) := by
  refine ⟨rfl, rfl, ?_⟩
  simp [weirdTable, weirdKey, Table.indexStr, Table.getStr, Table.entries,
    EntryList.lookupStr, strKeyMatches, Value.hashBytes, Value.borrowStr, strHashBytes,
    strBytes, Table.hashBytes, EntryList.hashBytes]

/-- C7 (amended): borrowing a Value as text yields the contents for the
`String` variant and `""` for every other variant; and a text lookup by a
*non-empty* string never returns an entry stored under a non-String key —
the key of a found entry is exactly `Value::String` of the probe text.
(Lookup by `""` can hit a non-String key whose hash stream coincides with
the empty string's, as the counterexample shows.) -/
theorem c7_borrow_and_text_lookup (v : Value) (s : Text) (l : EntryList) (w : Value) :
    Value.borrowStr (.String s) = s
    ∧ (isStringVariant v = false → Value.borrowStr v = "")
    ∧ (s ≠ "" → l.lookupStr s = some w →
        ∃ pre post, l.toList = pre ++ (Value.String s, w) :: post) := by
  refine ⟨rfl, ?_, fun hs h => lookupStr_some_string_key l s w hs h⟩
  intro hv
  rcases borrowStr_cases v with hk | hk
  · rw [hk] at hv; simp [isStringVariant] at hv
  · exact hk

/-- C7 witness: the amended theorem applied to the non-String value
`Usize 3` and to a concrete one-entry list holding `Bool true` under the
String key `"hello"`. -/
theorem c7_borrow_and_text_lookup_witness :
    Value.borrowStr (.Usize 3) = ""
    ∧ ∃ pre post, (EntryList.cons (.String "hello") (.Bool true) .nil).toList
        = pre ++ (Value.String "hello", Value.Bool true) :: post :=
  ⟨(c7_borrow_and_text_lookup (.Usize 3) "hello"
      (.cons (.String "hello") (.Bool true) .nil) (.Bool true)).2.1 rfl,
   (c7_borrow_and_text_lookup .Null "hello"
      (.cons (.String "hello") (.Bool true) .nil) (.Bool true)).2.2
    (by simp)
    (by simp [EntryList.lookupStr, strKeyMatches_self_string])⟩

/-- C8: inserting a value under the String-variant key `"hello"` and then
reading through the plain text index `"hello"` returns that same value, for
every starting table. -/
theorem c8_string_key_interchange (t : Table) (v : Value) :
    (t.insert (.String "hello") v).indexStr "hello" = some v := by
  simpa [Table.insert, Table.indexStr, Table.getStr, Table.entries] using
    lookupStr_insertEntry_string t.entries "hello" v (by simp)

/-- C9: write indexing is frame-preserving on occupied keys: when the probe
(Value, integer through `Usize`, or text) already matches a stored entry,
the entry step leaves the table completely unchanged and the handle
designates the existing slot still holding its old value (no `Null`
overwrite, no other entry touched). -/
theorem c9_write_index_frame (t : Table) (k : Value) (v0 : Value) (n : Nat) (s : String) :
    (t.getVal k = some v0 → t.vivifyVal k = t ∧ (t.vivifyVal k).getVal k = some v0)
    ∧ (t.getVal (.Usize n) = some v0 → t.vivifyUsize n = t)
    ∧ (t.getStr s = some v0 → t.vivifyStr s = t ∧ (t.vivifyStr s).getStr s = some v0) := by
  refine ⟨?_, ?_, ?_⟩
  · intro h
    have hv : t.vivifyVal k = t := by
      simp [Table.vivifyVal, show t.entries.lookupVal k = some v0 from h]
    exact ⟨hv, by rw [hv]; exact h⟩
  · intro h
    simp [Table.vivifyUsize, Table.vivifyVal,
      show t.entries.lookupVal (.Usize n) = some v0 from h]
  · intro h
    have hv : t.vivifyStr s = t := by
      simp [Table.vivifyStr, Table.containsStr, show t.getStr s = some v0 from h]
    exact ⟨hv, by rw [hv]; exact h⟩

/-- C9 witness: the frame theorem applied to a concrete table holding
entries under `Usize 0` and `String "a"`. -/
theorem c9_write_index_frame_witness :
    sampleTable.vivifyVal (.Usize 0) = sampleTable
    ∧ sampleTable.vivifyStr "a" = sampleTable := by
  have h := c9_write_index_frame sampleTable (.Usize 0) (.Bool true) 0 "a"
  refine ⟨(h.1 ?_).1, (h.2.2 ?_).1⟩
  · simp [sampleTable, Table.getVal, Table.entries, EntryList.lookupVal, keyMatches,
      Value.beq, Value.hashBytes]
  · simp [sampleTable, Table.getStr, Table.entries, EntryList.lookupStr, strKeyMatches,
      Value.borrowStr, Value.hashBytes, strHashBytes, strBytes]

/-- C10: positive and negative zero are identified: `F64(0.0) == F64(-0.0)`,
their hash byte streams coincide, and an entry inserted under `+0.0` is
found when probing with `-0.0`, in every table. -/
theorem c10_signed_zero (t : Table) (v : Value) :
    Value.beq (.F64 ⟨f64.pos0⟩) (.F64 ⟨f64.neg0⟩) = true
    ∧ Value.hashBytes (.F64 ⟨f64.pos0⟩) = Value.hashBytes (.F64 ⟨f64.neg0⟩)
    ∧ (t.insert (.F64 ⟨f64.pos0⟩) v).getVal (.F64 ⟨f64.neg0⟩) = some v := by
  refine ⟨?_, by decide, ?_⟩
  · simp [Value.beq, F64.beq, f64.ieeeEq, f64.pos0, f64.neg0]
  · simpa [Table.insert, Table.getVal, Table.entries] using
      lookupVal_insertEntry_pos0_neg0 t.entries v
